import Mathlib

/-!
Verification of the `read` builtin of `osh/builtin_misc.py`.

Python strings are modelled as `List Char`, fallible operations return
`Option`, and the input stream is an explicit list of bytes threaded through
the readers.  The span classifier (`SplitContext.SplitForRead`, which lives in
`osh/split.py` and is not part of the excerpted source) is modelled from the
spec's description of its interface and of IFS splitting.
-/

namespace OshRead

/-- The three span kinds produced by the span classifier
(`span_e.Black`, `span_e.Delim`, `span_e.Backslash`). -/
inductive SpanKind where
  | Black
  | Delim
  | Backslash
deriving DecidableEq, Repr

/-- Python slice `s[a:b]` on a list of characters. -/
def pySlice (s : List Char) (a b : Nat) : List Char :=
  (s.drop a).take (b - a)

/-- Python `parts[-1] += t` on a non-empty list: extend the last element.
(On the empty list Python raises IndexError; callers guard or return `none`.) -/
def addToLast (t : List Char) : List (List Char) → List (List Char)
  | [] => []
  | [p] => [p ++ t]
  | p :: ps => p :: addToLast t ps

/-- The body of one iteration of the span loop of `_AppendParts`
(lines 114-131 of `osh/builtin_misc.py`): dispatch on the span kind, given
the current `join_next` / `last_span_was_black` flags and `parts`.  Returns
`none` when Python would raise IndexError, i.e. when the Delim branch
executes `parts[-1] += ...` with `parts` empty.
Result: `(join_next, last_span_was_black, parts)`. -/
def _AppendPartsStep (text : List Char) (span_type : SpanKind) (join_next : Bool)
    (last_span_was_black : Bool) (parts : List (List Char)) :
    Option (Bool × Bool × List (List Char)) :=
  match span_type with
  | SpanKind.Black =>
    if join_next = true ∧ parts ≠ [] then
      some (false, true, addToLast text parts)
    else
      some (join_next, true, parts ++ [text])
  | SpanKind.Delim =>
    if join_next = true then
      if parts = [] then none
      else some (false, false, addToLast text parts)
    else
      some (join_next, false, parts)
  | SpanKind.Backslash =>
    some (if last_span_was_black = true then true else join_next, false, parts)

/-- The overflow cap at the end of each span iteration (lines 133-134):
`if max_results and len(parts) >= max_results: join_next = True`. -/
def capJoin (max_results : Nat) (parts : List (List Char)) (join_next : Bool) : Bool :=
  if max_results ≠ 0 ∧ max_results ≤ parts.length then true else join_next

/-- The span-processing loop of `_AppendParts` (lines 113-136), with the
running cursor `start_index`.  Result: `(join_next, parts)`, or `none` on a
Python IndexError. -/
def _AppendPartsLoop (s : List Char) (max_results : Nat) :
    List (SpanKind × Nat) → Nat → Bool → Bool → List (List Char) →
    Option (Bool × List (List Char))
  | [], _, join_next, _, parts => some (join_next, parts)
  | (span_type, end_index) :: rest, start_index, join_next, last_span_was_black, parts =>
    match _AppendPartsStep (pySlice s start_index end_index) span_type join_next
        last_span_was_black parts with
    | none => none
    | some (j1, lb1, p1) =>
      _AppendPartsLoop s max_results rest end_index (capJoin max_results p1 j1) lb1 p1

/-- The `done` computation of `_AppendParts` (lines 138-147): `done = True`
unless `spans` is non-empty and the final span is a `Backslash`. -/
def _AppendPartsDone (spans : List (SpanKind × Nat)) : Bool :=
  if spans.isEmpty then true
  else if (spans.getLastD (SpanKind.Black, 0)).1 = SpanKind.Backslash then false
  else true

/-- `_AppendParts(s, spans, max_results, join_next, parts)` from
`osh/builtin_misc.py`.  Result: `(done, join_next, parts)`, or `none` when
Python would raise IndexError. -/
def _AppendParts (s : List Char) (spans : List (SpanKind × Nat)) (max_results : Nat)
    (join_next : Bool) (parts : List (List Char)) :
    Option (Bool × Bool × List (List Char)) :=
  match _AppendPartsLoop s max_results spans 0 join_next false parts with
  | none => none
  | some (j, p) => some (_AppendPartsDone spans, j, p)

/-- `ReadLineFromStdin(delim_char)` (lines 162-178), with the stdin byte
stream made explicit.  Reads one byte at a time; stops on end of stream, on
the custom delimiter (consumed, not appended), or after appending a newline.
Returns the accumulated line and the unconsumed remainder of the stream. -/
def ReadLineFromStdin (delim_char : Option Char) : List Char → List Char × List Char
  | [] => ([], [])
  | c :: rest =>
    if some c = delim_char then ([], rest)
    else if c = '\n' then ([c], rest)
    else
      let lr := ReadLineFromStdin delim_char rest
      (c :: lr.1, lr.2)

/-- Cons a character onto the head run when that run has kind `k`, else start
a new run of kind `k`.  Helper for the spec-modelled span classifier. -/
def consRun (k : SpanKind) (c : Char) :
    List (SpanKind × List Char) → List (SpanKind × List Char)
  | (k', t) :: rs => if k' = k then (k, c :: t) :: rs else (k, [c]) :: (k', t) :: rs
  | [] => [(k, [c])]

/-- Modelled from the spec: the span classifier
(`self.splitter.SplitForRead(line, not arg.r)` of `osh/split.py`) is not part
of the excerpted source.  Per the spec it returns an ordered sequence of typed
spans over the line: maximal runs of IFS delimiter characters are Delimiter
spans, maximal runs of other characters are Content (Black) spans, and — when
escapes are enabled — each backslash is its own Escape span whose following
character is forced into a Content span (so an escaped character glues onto
the surrounding field text).  This function produces the runs as
`(kind, text)` pairs. -/
def classifyRuns (ifs : Char → Bool) (esc : Bool) : List Char → List (SpanKind × List Char)
  | [] => []
  | c :: rest =>
    if esc = true ∧ c = '\\' then
      match rest with
      | [] => [(SpanKind.Backslash, [c])]
      | c2 :: rest2 =>
        (SpanKind.Backslash, [c]) :: consRun SpanKind.Black c2 (classifyRuns ifs esc rest2)
    else if ifs c = true then
      consRun SpanKind.Delim c (classifyRuns ifs esc rest)
    else
      consRun SpanKind.Black c (classifyRuns ifs esc rest)

/-- Turn `(kind, text)` runs into the `(kind, end_offset)` spans consumed by
`_AppendParts`, offsets accumulating from `start`. -/
def spansOfRuns (start : Nat) : List (SpanKind × List Char) → List (SpanKind × Nat)
  | [] => []
  | (k, t) :: rs => (k, start + t.length) :: spansOfRuns (start + t.length) rs

/-- Modelled from the spec: the `(kind, end_offset)` interface of the span
classifier, `split(line, stripEscapes)`. -/
def SplitForRead (ifs : Char → Bool) (esc : Bool) (line : List Char) :
    List (SpanKind × Nat) :=
  spansOfRuns 0 (classifyRuns ifs esc line)

/-- `arg.d` handling in `Read.Run` (lines 236-242): `-d ''` means a NUL
delimiter; no `-d` means newline mode (`delim_char = None`). -/
def delimCharOf : Option (List Char) → Option Char
  | none => none
  | some [] => some (Char.ofNat 0)
  | some (c :: _) => some c

/-- Outcome of the delimited-mode loop of `Read.Run`: the exit status, the
assembled `parts`, the unconsumed remainder of the input stream, and the text
returned by `ReadLineFromStdin` in the final loop iteration. -/
structure LoopOut where
  status : Nat
  parts : List (List Char)
  rest : List Char
  lastLine : List Char
deriving DecidableEq, Repr

/-- The `while True` loop of `Read.Run` in delimited mode (lines 248-267).
`fuel` bounds the number of iterations; every iteration that does not stop
consumes at least one byte of the stream, so `stream.length + 1` iterations
always suffice (`ReadRunDelimited` passes exactly that).  `none` signals
either fuel exhaustion (unreachable from `ReadRunDelimited`) or a Python
IndexError inside `_AppendParts`. -/
def readLoop (ifs : Char → Bool) (raw : Bool) (d : Option Char) (max_results : Nat) :
    Nat → List Char → List (List Char) → Bool → Option LoopOut
  | 0, _, _, _ => none
  | fuel + 1, stream, parts, join_next =>
    let line := (ReadLineFromStdin d stream).1
    let rest := (ReadLineFromStdin d stream).2
    if line.isEmpty then some ⟨1, parts, rest, line⟩
    else
      let status := if line.getLast? = some '\n' then 0 else 1
      let line2 := if line.getLast? = some '\n' then line.dropLast else line
      match _AppendParts line2 (SplitForRead ifs (!raw) line2) max_results join_next parts with
      | none => none
      | some (done, j2, p2) =>
        if done then some ⟨status, p2, rest, line⟩
        else readLoop ifs raw d max_results fuel rest p2 j2

/-- Binding phase of `Read.Run` in delimited (non-array) mode
(lines 272-278): for each destination name in order, bind the corresponding
part, or the empty string when `parts` is too short. -/
def mkBindings (names : List String) (parts : List (List Char)) :
    List (String × List Char) :=
  (List.range names.length).map (fun i => (names.getD i "", parts.getD i []))

/-- Overall result of `Read.Run` in delimited mode. -/
structure ReadResult where
  status : Nat
  parts : List (List Char)
  bindings : List (String × List Char)
  rest : List Char
  lastLine : List Char
deriving DecidableEq, Repr

/-- `Read.Run` in delimited (non-array) mode (lines 227-280): default the
destination names to `REPLY`, set `max_results` to the number of names,
derive the custom delimiter from `arg.d`, run the continuation loop from
fresh state, then bind.  `ifs` and `raw` parameterise the span classifier;
`stream` is the stdin byte stream. -/
def ReadRunDelimited (ifs : Char → Bool) (raw : Bool) (argD : Option (List Char))
    (names0 : List String) (stream : List Char) : Option ReadResult :=
  let names := if names0.isEmpty then ["REPLY"] else names0
  let max_results := names.length
  let d := delimCharOf argD
  match readLoop ifs raw d max_results (stream.length + 1) stream [] false with
  | none => none
  | some out => some ⟨out.status, out.parts, mkBindings names out.parts, out.rest, out.lastLine⟩

/-- The non-terminal branch of fixed-byte-count mode (lines 213-221): block
reads of up to the remaining requested count, looping until the count is
satisfied or a read returns no bytes.  `oracle i` models how many bytes the
`i`-th `posix.read` call delivers (clipped to at least 1 and at most the
request; a blocking read on a non-empty stream returns at least one byte,
and returns empty exactly at end of stream).  `fuel` bounds iterations; each
iteration delivers at least one byte, so `fuel = n` suffices.
Result: accumulated string and unconsumed remainder of the stream. -/
def blockReadLoop (oracle : Nat → Nat) :
    Nat → Nat → Nat → List Char → List Char → List Char × List Char
  | 0, _, _, stream, acc => (acc, stream)
  | fuel + 1, i, n, stream, acc =>
    if n = 0 then (acc, stream)
    else
      match stream with
      | [] => (acc, stream)
      | _ :: _ =>
        let want := min n (max (oracle i) 1)
        let buf := stream.take want
        blockReadLoop oracle fuel (i + 1) (n - buf.length) (stream.drop want) (acc ++ buf)

/-- `Read.Run` fixed-byte-count mode on a non-interactive descriptor
(lines 192-198, 213-225): pick the sole destination name (default `REPLY`),
run the block-read loop, bind, and return status 0 unconditionally. -/
def ReadRunFixed (names : List String) (n : Nat) (stream : List Char)
    (oracle : Nat → Nat) : Nat × (String × List Char) × List Char :=
  let name := names.headD "REPLY"
  let sr := blockReadLoop oracle n 0 n stream []
  (0, (name, sr.1), sr.2)

/-- The `ICANON` canonical-mode bit of the termios local-flags word. -/
def ICANON : Nat := 2

/-- `attrs[3] &= ~termios.ICANON` (line 204), on a 32-bit flags word. -/
def disableCanon (a : Nat) : Nat :=
  Nat.land a (2 ^ 32 - 1 - ICANON)

/-- The unbuffered single-byte read loop of fixed-byte-count mode on a
terminal (lines 208-210).  `oracle i` is the outcome of the `i`-th
`posix.read(stdin, 1)`: a (possibly empty) string, or an OS error. -/
def ttyReadLoop (oracle : Nat → Except Unit (List Char)) :
    Nat → Nat → List Char → Except Unit (List Char)
  | _, 0, s => Except.ok s
  | i, n + 1, s =>
    match oracle i with
    | Except.error e => Except.error e
    | Except.ok buf => ttyReadLoop oracle (i + 1) n (s ++ buf)

/-- `Read.Run` fixed-byte-count mode on a terminal (lines 199-212): save the
attribute snapshot, apply the canonical-mode-disabled copy, run the read
loop inside `try`, and restore the saved snapshot in `finally` — also when a
read raised.  Result: the read outcome, the ordered trace of
`termios.tcsetattr` calls made, and the terminal attributes after the call
(the last value set). -/
def ReadRunFixedTTY (orig : Nat) (oracle : Nat → Except Unit (List Char)) (n : Nat) :
    Except Unit (List Char) × List Nat × Nat :=
  let attrs := disableCanon orig
  let res := ttyReadLoop oracle 0 n []
  let trace := [attrs] ++ [orig]
  (res, trace, trace.getLastD orig)

/-- Concatenation of the texts of a run list (the slice of the original line
that the runs cover). -/
def concatTexts : List (SpanKind × List Char) → List Char
  | [] => []
  | (_, t) :: rs => t ++ concatTexts rs

/-- The texts of the Content (Black) runs, i.e. the tokens of the line. -/
def blackTexts : List (SpanKind × List Char) → List (List Char)
  | [] => []
  | (k, t) :: rs => if k = SpanKind.Black then t :: blackTexts rs else blackTexts rs

/-- The run-list suffix starting at the `(j+1)`-th Content run. -/
def dropToBlack : Nat → List (SpanKind × List Char) → List (SpanKind × List Char)
  | _, [] => []
  | j, (k, t) :: rs =>
    if k = SpanKind.Black then
      if j = 0 then (k, t) :: rs else dropToBlack (j - 1) rs
    else dropToBlack j rs

/-- The span loop of `_AppendParts` re-expressed over `(kind, text)` runs
instead of `(kind, end_offset)` spans plus the cursor; equal to
`_AppendPartsLoop` whenever the run texts tile the processed slice of the
line (proved below). -/
def _AppendPartsTextLoop (max_results : Nat) :
    List (SpanKind × List Char) → Bool → Bool → List (List Char) →
    Option (Bool × List (List Char))
  | [], join_next, _, parts => some (join_next, parts)
  | (k, t) :: rs, join_next, last_span_was_black, parts =>
    match _AppendPartsStep t k join_next last_span_was_black parts with
    | none => none
    | some (j1, lb1, p1) =>
      _AppendPartsTextLoop max_results rs (capJoin max_results p1 j1) lb1 p1

/-! ### Basic lemmas about the reader -/

/-- Combined structural facts about `ReadLineFromStdin`: the delimiter never
appears in the returned line; the stream decomposes as line ++ rest, with the
stopping delimiter byte (when that is what stopped the read) consumed in
between; and a read stopped neither by the delimiter nor by end of stream
ends in the newline it appended. -/
theorem ReadLineFromStdin_facts (d : Option Char) :
    ∀ s : List Char,
      (∀ c, d = some c → c ∉ (ReadLineFromStdin d s).1) ∧
      (s = (ReadLineFromStdin d s).1 ++ (ReadLineFromStdin d s).2 ∨
        ∃ c, d = some c ∧ s = (ReadLineFromStdin d s).1 ++ c :: (ReadLineFromStdin d s).2) ∧
      ((ReadLineFromStdin d s).2 ≠ [] →
        (∃ c, d = some c ∧ s = (ReadLineFromStdin d s).1 ++ c :: (ReadLineFromStdin d s).2) ∨
        (ReadLineFromStdin d s).1.getLast? = some '\n')
  | [] => by
    refine ⟨fun c _ => List.not_mem_nil c, Or.inl rfl, fun h => absurd rfl h⟩
  | c :: rest => by
    by_cases hd : some c = d
    · constructor
      · intro c' hc'
        simp [ReadLineFromStdin, hd]
      · constructor
        · exact Or.inr ⟨c, hd.symm, by simp [ReadLineFromStdin, hd]⟩
        · intro _
          exact Or.inl ⟨c, hd.symm, by simp [ReadLineFromStdin, hd]⟩
    · by_cases hn : c = '\n'
      · subst hn
        have hline : ReadLineFromStdin d ('\n' :: rest) = (['\n'], rest) := by
          simp [ReadLineFromStdin, hd]
        refine ⟨fun c' hc' hmem => ?_, Or.inl ?_, fun _ => Or.inr ?_⟩
        · rw [hline] at hmem
          rcases List.mem_singleton.mp hmem with rfl
          exact hd hc'.symm
        · rw [hline]; rfl
        · rw [hline]; rfl
      · obtain ⟨ih1, ih2, ih3⟩ := ReadLineFromStdin_facts d rest
        have hline : (ReadLineFromStdin d (c :: rest)).1 = c :: (ReadLineFromStdin d rest).1 := by
          simp [ReadLineFromStdin, hd, hn]
        have hrest : (ReadLineFromStdin d (c :: rest)).2 = (ReadLineFromStdin d rest).2 := by
          simp [ReadLineFromStdin, hd, hn]
        refine ⟨fun c' hc' => ?_, ?_, fun hne => ?_⟩
        · rw [hline]
          intro hmem
          rcases List.mem_cons.mp hmem with rfl | hmem'
          · exact hd (by rw [hc'])
          · exact ih1 c' hc' hmem'
        · rw [hline, hrest]
          rcases ih2 with h | ⟨c', hc', h⟩
          · exact Or.inl (by rw [List.cons_append, ← h])
          · exact Or.inr ⟨c', hc', by rw [List.cons_append, ← h]⟩
        · rw [hrest] at hne
          rcases ih3 hne with ⟨c', hc', h⟩ | h
          · exact Or.inl ⟨c', hc', by rw [hline, hrest, List.cons_append, ← h]⟩
          · refine Or.inr ?_
            rw [hline]
            cases hl : (ReadLineFromStdin d rest).1 with
            | nil => rw [hl] at h; simp at h
            | cons x xs =>
              rw [hl] at h
              simp only [hl, List.getLast?_cons_cons]
              exact h

/-- C9: with a custom delimiter byte configured, `ReadLineFromStdin` consumes
the delimiter from the stream but never includes it in the returned string
(so the returned string never ends with the delimiter), whereas a read
stopped by a newline includes that newline as the final character. -/
theorem c9_reader_delim_consumed (d : Char) (s : List Char) :
    d ∉ (ReadLineFromStdin (some d) s).1 ∧
    (s = (ReadLineFromStdin (some d) s).1 ++ (ReadLineFromStdin (some d) s).2 ∨
      s = (ReadLineFromStdin (some d) s).1 ++ d :: (ReadLineFromStdin (some d) s).2) ∧
    ((ReadLineFromStdin (some d) s).2 ≠ [] →
      s = (ReadLineFromStdin (some d) s).1 ++ d :: (ReadLineFromStdin (some d) s).2 ∨
      (ReadLineFromStdin (some d) s).1.getLast? = some '\n') ∧
    (ReadLineFromStdin (some d) s).1.getLast? ≠ some d := by
  obtain ⟨h1, h2, h3⟩ := ReadLineFromStdin_facts (some d) s
  have hnm : d ∉ (ReadLineFromStdin (some d) s).1 := h1 d rfl
  refine ⟨hnm, ?_, fun hne => ?_, fun hlast => ?_⟩
  · rcases h2 with h | ⟨c, hc, h⟩
    · exact Or.inl h
    · rcases Option.some_inj.mp hc with rfl
      exact Or.inr h
  · rcases h3 hne with ⟨c, hc, h⟩ | h
    · rcases Option.some_inj.mp hc with rfl
      exact Or.inl h
    · exact Or.inr h
  · rcases List.mem_getLast?_eq_getLast hlast with ⟨hne', heq⟩
    have hmem := List.getLast_mem hne'
    rw [← heq] at hmem
    exact hnm hmem

/-- C9 witness: delimiter `':'`, stream `"ab\ncd"`: the read stops at the
newline (which is included) and leaves `"cd"` unconsumed. -/
theorem c9_witness :
    ("ab\ncd".toList =
        (ReadLineFromStdin (some ':') "ab\ncd".toList).1 ++
          ':' :: (ReadLineFromStdin (some ':') "ab\ncd".toList).2 ∨
      (ReadLineFromStdin (some ':') "ab\ncd".toList).1.getLast? = some '\n') :=
  (c9_reader_delim_consumed ':' "ab\ncd".toList).2.2.1 (by decide)

/-! ### The `done` flag of `_AppendParts` -/

/-- `_AppendPartsDone` is `false` exactly when the span list is non-empty and
ends in a `Backslash` span. -/
theorem _AppendPartsDone_iff :
    ∀ spans : List (SpanKind × Nat),
      (_AppendPartsDone spans = false ↔ ∃ e, spans.getLast? = some (SpanKind.Backslash, e))
  | [] => by simp [_AppendPartsDone]
  | [(k, e)] => by cases k <;> simp [_AppendPartsDone, List.getLastD]
  | a :: b :: l => by
    have ih := _AppendPartsDone_iff (b :: l)
    simpa [_AppendPartsDone, List.getLastD, List.getLast?_cons_cons] using ih

/-- C5: whenever `_AppendParts` returns, `done` is `true` unless the span
sequence is non-empty and its final span's kind is `Backslash`, in which case
`done` is `false`; the characterization depends only on the final span, so
the kinds of non-final spans never affect `done`. -/
theorem c5_done_characterization (s : List Char) (spans : List (SpanKind × Nat))
    (k : Nat) (j : Bool) (p : List (List Char)) (r : Bool × Bool × List (List Char))
    (h : _AppendParts s spans k j p = some r) :
    (r.1 = false ↔ ∃ e, spans.getLast? = some (SpanKind.Backslash, e)) := by
  have hr : r.1 = _AppendPartsDone spans := by
    unfold _AppendParts at h
    cases hl : _AppendPartsLoop s k spans 0 j false p with
    | none => rw [hl] at h; exact absurd h (by simp)
    | some jp =>
      rw [hl] at h
      cases h
      rfl
  rw [hr]
  exact _AppendPartsDone_iff spans

/-- C5 witness: on `"a\"` classified as a Content span followed by an Escape
span, `_AppendParts` returns `done = false`. -/
theorem c5_witness :
    _AppendParts "a\\".toList [(SpanKind.Black, 1), (SpanKind.Backslash, 2)] 0 false [] =
      some (false, true, [['a']]) ∧
    ((false, true, [['a']]) : Bool × Bool × List (List Char)).1 = false :=
  ⟨by decide,
    (c5_done_characterization "a\\".toList [(SpanKind.Black, 1), (SpanKind.Backslash, 2)]
          0 false [] (false, true, [['a']]) (by decide)).mpr ⟨2, rfl⟩⟩

/-! ### Safety of the unguarded `parts[-1]` access (C8) -/

theorem addToLast_ne_nil {t : List Char} {p : List (List Char)} (h : p ≠ []) :
    addToLast t p ≠ [] := by
  cases p with
  | nil => exact absurd rfl h
  | cons a l => cases l <;> simp [addToLast]

theorem capJoin_ne_nil {k : Nat} {p : List (List Char)} {j : Bool}
    (hj : j = true → p ≠ []) (hc : capJoin k p j = true) : p ≠ [] := by
  unfold capJoin at hc
  split at hc
  · next hcond =>
    intro hp
    subst hp
    exact hcond.1 (Nat.le_zero.mp (by simpa using hcond.2))
  · exact hj hc

/-- One span step preserves the invariant that both flags imply `parts` is
non-empty, and never raises. -/
theorem _AppendPartsStep_some {text : List Char} {sk : SpanKind} {j lb : Bool}
    {p : List (List Char)} (hj : j = true → p ≠ []) (hlb : lb = true → p ≠ []) :
    ∃ j1 lb1 p1, _AppendPartsStep text sk j lb p = some (j1, lb1, p1) ∧
      (j1 = true → p1 ≠ []) ∧ (lb1 = true → p1 ≠ []) := by
  cases sk with
  | Black =>
    by_cases hc : j = true ∧ p ≠ []
    · refine ⟨false, true, addToLast text p, by simp [_AppendPartsStep, hc], ?_, ?_⟩
      · simp
      · exact fun _ => addToLast_ne_nil hc.2
    · refine ⟨j, true, p ++ [text], by simp [_AppendPartsStep, hc], ?_, ?_⟩
      · intro _; simp
      · intro _; simp
  | Delim =>
    by_cases hjj : j = true
    · have hp : p ≠ [] := hj hjj
      refine ⟨false, false, addToLast text p, by simp [_AppendPartsStep, hjj, hp], ?_, ?_⟩
      · simp
      · simp
    · refine ⟨j, false, p, by simp [_AppendPartsStep, hjj], hj, ?_⟩
      simp
  | Backslash =>
    by_cases hb : lb = true
    · refine ⟨true, false, p, by simp [_AppendPartsStep, hb], fun _ => hlb hb, ?_⟩
      simp
    · refine ⟨j, false, p, by simp [_AppendPartsStep, hb], hj, ?_⟩
      simp

/-- The span loop never raises when `join_next` implies `parts` non-empty on
entry (and `last_span_was_black` likewise), and it preserves that
invariant. -/
theorem _AppendPartsLoop_no_indexerror (s : List Char) (k : Nat) :
    ∀ (spans : List (SpanKind × Nat)) (start : Nat) (j lb : Bool) (p : List (List Char)),
      (j = true → p ≠ []) → (lb = true → p ≠ []) →
      ∃ j' p', _AppendPartsLoop s k spans start j lb p = some (j', p') ∧
        (j' = true → p' ≠ [])
  | [], _, j, _, p, hj, _ => ⟨j, p, rfl, hj⟩
  | (sk, e) :: rest, start, j, lb, p, hj, hlb => by
    obtain ⟨j1, lb1, p1, hx, hx1, hx2⟩ :=
      @_AppendPartsStep_some (pySlice s start e) sk j lb p hj hlb
    obtain ⟨j', p', hjp, hjp1⟩ :=
      _AppendPartsLoop_no_indexerror s k rest e (capJoin k p1 j1) lb1 p1
        (fun hc => capJoin_ne_nil hx1 hc) hx2
    refine ⟨j', p', ?_, hjp1⟩
    simp only [_AppendPartsLoop, hx]
    exact hjp

/-- C8: whenever `join_next` is false or `parts` is non-empty on entry, the
unguarded `parts[-1]` access in the Delim branch of `_AppendParts` is in
bounds (the call returns instead of raising IndexError), because the function
preserves the invariant that `join_next` is true only when `parts` is
non-empty. -/
theorem c8_delim_access_in_bounds (s : List Char) (spans : List (SpanKind × Nat))
    (k : Nat) (j : Bool) (p : List (List Char)) (h : j = false ∨ p ≠ []) :
    _AppendParts s spans k j p ≠ none ∧
      ∀ r, _AppendParts s spans k j p = some r → (r.2.1 = true → r.2.2 ≠ []) := by
  have hj : j = true → p ≠ [] := by
    rcases h with h | h
    · intro hj'; rw [h] at hj'; exact absurd hj' (by simp)
    · exact fun _ => h
  obtain ⟨j', p', hjp, hinv⟩ :=
    _AppendPartsLoop_no_indexerror s k spans 0 j false p hj (by simp)
  have hres : _AppendParts s spans k j p = some (_AppendPartsDone spans, j', p') := by
    unfold _AppendParts
    rw [hjp]
  constructor
  · rw [hres]; simp
  · intro r hr
    rw [hres] at hr
    cases hr
    exact hinv

/-- C8 witness: a single Content span from the empty entry state. -/
theorem c8_witness :
    _AppendParts ['x'] [(SpanKind.Black, 1)] 0 false [] ≠ none :=
  (c8_delim_access_in_bounds ['x'] [(SpanKind.Black, 1)] 0 false [] (Or.inl rfl)).1

/-! ### Concrete runs of delimited mode (C1, C10) -/

/-- C1 counterexample: with the custom (`-d`) delimiter `':'`, destinations
`["a","b"]` and stream `"x:y:z\n"`, the line reader stops at the first `':'`,
so the run yields `Parts = ["x"]`, exit status 1, `a = "x"` and `b = ""` —
not `Parts = ["x","y:z"]`, status 0, `b = "y:z"` as claimed.  (The IFS
predicate is set to `':'` as well, the reading most favourable to the
claim.) -/
theorem c1_counterexample :
    (ReadRunDelimited (fun c => c = ':') false (some [':']) ["a", "b"]
          ("x:y:z\n".toList)).map (fun r => (r.status, r.parts, r.bindings)) =
        some (1, [['x']], [("a", ['x']), ("b", [])]) ∧
      (ReadRunDelimited (fun c => c = ':') false (some [':']) ["a", "b"]
          ("x:y:z\n".toList)).map (fun r => (r.status, r.parts, r.bindings)) ≠
        some (0, [['x'], "y:z".toList], [("a", ['x']), ("b", "y:z".toList)]) := by
  constructor
  · decide
  · decide

/-- C1 amended: with no custom `-d` delimiter (newline mode) and `':'` as the
field-splitting (IFS) delimiter of the span classifier, destinations
`["a","b"]` (`max_results = 2`) and stream `"x:y:z\n"`, the run yields
`Parts = ["x","y:z"]`, exit status 0, `a = "x"` and `b = "y:z"`. -/
theorem c1_amended_delimiter_splitting :
    ReadRunDelimited (fun c => c = ':') false none ["a", "b"] ("x:y:z\n".toList) =
      some ⟨0, [['x'], "y:z".toList], [("a", ['x']), ("b", "y:z".toList)], [],
        "x:y:z\n".toList⟩ := by
  decide

/-- C10: an empty string returned by the line reader is always treated as end
of stream.  First, when the first byte of the stream equals the custom
delimiter the reader returns the empty string, consuming only that byte.
Second, whenever the first read returns empty, the run stops with status 1,
binds only the parts assembled so far (none — every name gets the empty
string), and leaves the remainder of the stream unconsumed.  Third, the
concrete instance: delimiter `':'`, destinations `["a","b"]`, stream
`":rest"` gives status 1, `a = ""`, `b = ""`, and `"rest"` unconsumed. -/
theorem c10_empty_line_is_eof :
    (∀ (c : Char) (rest : List Char), ReadLineFromStdin (some c) (c :: rest) = ([], rest)) ∧
    (∀ (ifs : Char → Bool) (raw : Bool) (argD : Option (List Char)) (names0 : List String)
        (stream : List Char),
      (ReadLineFromStdin (delimCharOf argD) stream).1 = [] →
      ReadRunDelimited ifs raw argD names0 stream =
        some ⟨1, [], mkBindings (if names0.isEmpty then ["REPLY"] else names0) [],
          (ReadLineFromStdin (delimCharOf argD) stream).2, []⟩) ∧
    ReadRunDelimited (fun c => c = ':') false (some [':']) ["a", "b"] (':' :: "rest".toList) =
      some ⟨1, [], [("a", []), ("b", [])], "rest".toList, []⟩ := by
  refine ⟨fun c rest => by simp [ReadLineFromStdin], fun ifs raw argD names0 stream h => ?_,
    by decide⟩
  unfold ReadRunDelimited
  have hs : (stream.length + 1) = Nat.succ stream.length := rfl
  rw [hs]
  simp only [readLoop, h, List.isEmpty_nil]
  simp [h]

/-- C10 witness: a stream consisting of just the delimiter byte, no
destination names (defaulting to `REPLY`). -/
theorem c10_witness :
    ReadRunDelimited (fun _ => false) true (some [':']) [] [':'] =
      some ⟨1, [], mkBindings (if ([] : List String).isEmpty then ["REPLY"] else []) [],
        (ReadLineFromStdin (delimCharOf (some [':'])) [':']).2, []⟩ :=
  c10_empty_line_is_eof.2.1 (fun _ => false) true (some [':']) [] [':'] (by decide)

/-! ### Fixed-byte-count mode (C6, C4) -/

/-- The block-read loop accumulates exactly the first `n` bytes of the
stream (fewer when the stream is shorter) and leaves the remainder
unconsumed, for every delivery oracle, as long as `fuel ≥ n`. -/
theorem blockReadLoop_eq (oracle : Nat → Nat) :
    ∀ (fuel i n : Nat) (stream acc : List Char), n ≤ fuel →
      blockReadLoop oracle fuel i n stream acc = (acc ++ stream.take n, stream.drop n) := by
  intro fuel
  induction fuel with
  | zero =>
    intro i n stream acc hn
    obtain rfl : n = 0 := Nat.le_zero.mp hn
    simp [blockReadLoop]
  | succ fuel ih =>
    intro i n stream acc hn
    match n, stream with
    | 0, stream => simp [blockReadLoop]
    | m + 1, [] => simp [blockReadLoop]
    | m + 1, c :: cs =>
      have hstep : blockReadLoop oracle (fuel + 1) i (m + 1) (c :: cs) acc =
          blockReadLoop oracle fuel (i + 1)
            (m + 1 - ((c :: cs).take (min (m + 1) (max (oracle i) 1))).length)
            ((c :: cs).drop (min (m + 1) (max (oracle i) 1)))
            (acc ++ (c :: cs).take (min (m + 1) (max (oracle i) 1))) := by
        simp only [blockReadLoop]
        rw [if_neg (Nat.succ_ne_zero m)]
      have hL : ((c :: cs).take (min (m + 1) (max (oracle i) 1))).length =
          min (min (m + 1) (max (oracle i) 1)) (c :: cs).length := List.length_take _ _
      have hL1 : 1 ≤ ((c :: cs).take (min (m + 1) (max (oracle i) 1))).length := by
        rw [hL]
        simp only [List.length_cons]
        omega
      have hfuel : m + 1 - ((c :: cs).take (min (m + 1) (max (oracle i) 1))).length ≤ fuel := by
        omega
      rw [hstep, ih _ _ _ _ hfuel]
      set w := min (m + 1) (max (oracle i) 1) with hw
      have hwle : w ≤ m + 1 := min_le_left _ _
      by_cases hcase : w ≤ (c :: cs).length
      · have hlen : ((c :: cs).take w).length = w := by rw [hL]; exact min_eq_left hcase
        rw [hlen]
        refine Prod.ext ?_ ?_
        · show acc ++ (c :: cs).take w ++ ((c :: cs).drop w).take (m + 1 - w) =
            acc ++ (c :: cs).take (m + 1)
          rw [List.append_assoc, ← List.take_add]
          rw [Nat.add_sub_cancel' hwle]
        · show ((c :: cs).drop w).drop (m + 1 - w) = (c :: cs).drop (m + 1)
          rw [List.drop_drop]
          congr 1
          omega
      · push_neg at hcase
        have hsle : (c :: cs).length ≤ w := Nat.le_of_lt hcase
        have htake : (c :: cs).take w = c :: cs := List.take_of_length_le hsle
        have hdrop : (c :: cs).drop w = [] := List.drop_eq_nil_of_le hsle
        have hlen : ((c :: cs).take w).length = (c :: cs).length := by rw [htake]
        rw [hlen, htake, hdrop]
        refine Prod.ext ?_ ?_
        · show acc ++ (c :: cs) ++ List.take (m + 1 - (c :: cs).length) [] =
            acc ++ (c :: cs).take (m + 1)
          rw [List.take_nil, List.append_nil, List.take_of_length_le (le_trans hsle hwle)]
        · show List.drop (m + 1 - (c :: cs).length) [] = (c :: cs).drop (m + 1)
          rw [List.drop_nil, List.drop_eq_nil_of_le (le_trans hsle hwle)]

/-- C6: fixed-byte-count mode on a non-interactive descriptor performs block
reads of up to the remaining requested count (any delivery oracle), looping
until `n` bytes are accumulated or the stream ends; the accumulated string,
`stream.take n` (shorter than `n` exactly when the stream is), is bound to
the sole destination name (default `REPLY` when no name is given), the bytes
past the first `n` stay in the stream, and the status is 0 regardless of
shortfall. -/
theorem c6_fixed_nontty (names : List String) (n : Nat) (stream : List Char)
    (oracle : Nat → Nat) :
    ReadRunFixed names n stream oracle =
      (0, (names.headD "REPLY", stream.take n), stream.drop n) := by
  unfold ReadRunFixed
  rw [blockReadLoop_eq oracle n 0 n stream [] (le_refl n)]
  rfl

/-- C4: the terminal attribute snapshot saved before disabling canonical mode
is restored on every exit path of the interactive fixed-byte-count branch —
for every read oracle, including ones that raise mid-loop — so the terminal
attributes after the call (the last `tcsetattr` made) equal their exact
pre-call value, while the attributes applied during the reads are the
canonical-mode-disabled copy. -/
theorem c4_tty_attrs_restored (orig : Nat) (oracle : Nat → Except Unit (List Char)) (n : Nat) :
    (ReadRunFixedTTY orig oracle n).2.2 = orig ∧
    (ReadRunFixedTTY orig oracle n).2.1.getLast? = some orig ∧
    (ReadRunFixedTTY orig oracle n).2.1 = [disableCanon orig, orig] ∧
    (ReadRunFixedTTY orig oracle n).1 = ttyReadLoop oracle 0 n [] :=
  ⟨rfl, rfl, rfl, rfl⟩

/-! ### Exit status and bindings of delimited mode (C2, C7) -/

theorem getLast?_ne_of_not_mem {α : Type _} {l : List α} {a : α} (h : a ∉ l) :
    l.getLast? ≠ some a := by
  intro hlast
  rcases List.mem_getLast?_eq_getLast hlast with ⟨hne, heq⟩
  have hmem := List.getLast_mem hne
  rw [← heq] at hmem
  exact h hmem

/-- In the delimited loop, the final status is 0 exactly when the text
returned by the final `ReadLineFromStdin` call ends in a newline; that text
never ends in the configured custom delimiter; and the status is 0 or 1. -/
theorem readLoop_status_iff (ifs : Char → Bool) (raw : Bool) (d : Option Char) (k : Nat) :
    ∀ (fuel : Nat) (stream : List Char) (parts : List (List Char)) (j : Bool) (out : LoopOut),
      readLoop ifs raw d k fuel stream parts j = some out →
      ((out.status = 0 ↔ out.lastLine.getLast? = some '\n') ∧
        (∀ c, d = some c → out.lastLine.getLast? ≠ some c) ∧
        (out.status = 0 ∨ out.status = 1)) := by
  intro fuel
  induction fuel with
  | zero =>
    intro stream parts j out h
    exact absurd h (by simp [readLoop])
  | succ fuel ih =>
    intro stream parts j out h
    simp only [readLoop] at h
    by_cases hL : ((ReadLineFromStdin d stream).1).isEmpty = true
    · rw [if_pos hL] at h
      have hnil : (ReadLineFromStdin d stream).1 = [] := List.isEmpty_iff.mp hL
      cases h
      refine ⟨?_, ?_, Or.inr rfl⟩
      · rw [hnil]
        simp
      · intro c _
        rw [hnil]
        simp
    · rw [if_neg hL] at h
      cases hA : _AppendParts
          (if (ReadLineFromStdin d stream).1.getLast? = some '\n' then
            (ReadLineFromStdin d stream).1.dropLast
          else (ReadLineFromStdin d stream).1)
          (SplitForRead ifs (!raw)
            (if (ReadLineFromStdin d stream).1.getLast? = some '\n' then
              (ReadLineFromStdin d stream).1.dropLast
            else (ReadLineFromStdin d stream).1))
          k j parts with
      | none => rw [hA] at h; exact absurd h (by simp)
      | some djp =>
        obtain ⟨done, j2, p2⟩ := djp
        rw [hA] at h
        dsimp only at h
        by_cases hdone : done = true
        · rw [if_pos hdone] at h
          cases h
          refine ⟨?_, ?_, ?_⟩
          · by_cases hnl : (ReadLineFromStdin d stream).1.getLast? = some '\n'
            · simp [hnl]
            · simp [hnl]
          · intro c hc
            obtain ⟨h1, _, _⟩ := ReadLineFromStdin_facts d stream
            exact getLast?_ne_of_not_mem (h1 c hc)
          · by_cases hnl : (ReadLineFromStdin d stream).1.getLast? = some '\n'
            · simp [hnl]
            · simp [hnl]
        · rw [if_neg hdone] at h
          exact ih _ _ _ _ h

/-- C2: in delimited mode, the exit status is 0 exactly when the text
returned by the line reader in the final loop iteration ends with the line
terminator — a newline, or the configured custom delimiter when one is set
(the latter can never happen, since the reader consumes the delimiter
without including it) — and the status is always 0 or 1 (1 in particular on
empty input, where the final returned text is empty). -/
theorem c2_status_iff_terminator (ifs : Char → Bool) (raw : Bool)
    (argD : Option (List Char)) (names0 : List String) (stream : List Char)
    (r : ReadResult) (h : ReadRunDelimited ifs raw argD names0 stream = some r) :
    (r.status = 0 ↔
      (r.lastLine.getLast? = some '\n' ∨
        ∃ c, delimCharOf argD = some c ∧ r.lastLine.getLast? = some c)) ∧
    (r.status = 0 ∨ r.status = 1) := by
  simp only [ReadRunDelimited] at h
  cases hout : readLoop ifs raw (delimCharOf argD)
      (if names0.isEmpty then ["REPLY"] else names0).length (stream.length + 1)
      stream [] false with
  | none => rw [hout] at h; exact absurd h (by simp)
  | some out =>
    rw [hout] at h
    obtain ⟨hiff, hdelim, hor⟩ :=
      readLoop_status_iff ifs raw (delimCharOf argD) _ _ _ _ _ _ hout
    cases h
    refine ⟨?_, hor⟩
    constructor
    · intro h0
      exact Or.inl (hiff.mp h0)
    · intro hterm
      rcases hterm with hnl | ⟨c, hc, hlast⟩
      · exact hiff.mpr hnl
      · exact absurd hlast (hdelim c hc)

/-- C2 witness: IFS space, no custom delimiter, stream `"hi\n"`: status 0 and
the final returned text ends with a newline. -/
theorem c2_witness :
    (ReadResult.mk 0 [['h', 'i']] [("a", ['h', 'i'])] [] "hi\n".toList).status = 0 ↔
      ((ReadResult.mk 0 [['h', 'i']] [("a", ['h', 'i'])] [] "hi\n".toList).lastLine.getLast? =
          some '\n' ∨
        ∃ c, delimCharOf none = some c ∧
          (ReadResult.mk 0 [['h', 'i']] [("a", ['h', 'i'])] [] "hi\n".toList).lastLine.getLast? =
            some c) :=
  (c2_status_iff_terminator (fun c => c = ' ') false none ["a"] "hi\n".toList
      ⟨0, [['h', 'i']], [("a", ['h', 'i'])], [], "hi\n".toList⟩ (by decide)).1

/-- Elementwise description of the binding phase. -/
theorem mkBindings_getD (names : List String) (parts : List (List Char)) (i : Nat)
    (hi : i < names.length) :
    (mkBindings names parts).getD i ("", []) = (names.getD i "", parts.getD i []) := by
  unfold mkBindings
  have h1 : ((List.range names.length).map
      (fun i => (names.getD i "", parts.getD i []))).getD i ("", []) =
      (((List.range names.length).map
        (fun i => (names.getD i "", parts.getD i [])))[i]?).getD ("", []) := by
    rw [List.getD_eq_getElem?_getD]
  rw [h1, List.getElem?_map, List.getElem?_range hi]
  rfl

/-- C7: when the stream ends in delimited mode (the line reader returns the
empty string) the loop stops with status 1 but the parts assembled so far
are kept; bindings are always committed: the result binds, for each
destination name in order, the corresponding element of `Parts` when
present and the empty string otherwise; in particular, destinations
`["a","b"]` on an empty stream give status 1, `a = ""`, `b = ""`. -/
theorem c7_eof_still_commits_bindings :
    (∀ (ifs : Char → Bool) (raw : Bool) (d : Option Char) (k fuel : Nat)
        (stream : List Char) (parts : List (List Char)) (j : Bool),
      (ReadLineFromStdin d stream).1 = [] →
      readLoop ifs raw d k (fuel + 1) stream parts j =
        some ⟨1, parts, (ReadLineFromStdin d stream).2, []⟩) ∧
    (∀ (ifs : Char → Bool) (raw : Bool) (argD : Option (List Char)) (names0 : List String)
        (stream : List Char) (r : ReadResult),
      ReadRunDelimited ifs raw argD names0 stream = some r →
      r.bindings.length = (if names0.isEmpty then ["REPLY"] else names0).length ∧
      ∀ i, i < (if names0.isEmpty then ["REPLY"] else names0).length →
        r.bindings.getD i ("", []) =
          ((if names0.isEmpty then ["REPLY"] else names0).getD i "", r.parts.getD i [])) ∧
    (∀ (ifs : Char → Bool) (raw : Bool) (argD : Option (List Char)),
      ReadRunDelimited ifs raw argD ["a", "b"] [] =
        some ⟨1, [], [("a", []), ("b", [])], [], []⟩) := by
  refine ⟨?_, ?_, ?_⟩
  · intro ifs raw d k fuel stream parts j h
    simp only [readLoop, h, List.isEmpty_nil]
    simp [h]
  · intro ifs raw argD names0 stream r h
    simp only [ReadRunDelimited] at h
    cases hout : readLoop ifs raw (delimCharOf argD)
        (if names0.isEmpty then ["REPLY"] else names0).length (stream.length + 1)
        stream [] false with
    | none => rw [hout] at h; exact absurd h (by simp)
    | some out =>
      rw [hout] at h
      cases h
      refine ⟨by simp [mkBindings], fun i hi => mkBindings_getD _ _ i hi⟩
  · intro ifs raw argD
    show ReadRunDelimited ifs raw argD ["a", "b"] [] = _
    simp only [ReadRunDelimited, readLoop, ReadLineFromStdin]
    rfl

/-- C7 witness: a loop entered with one part already assembled hits the end
of the stream and keeps it with status 1. -/
theorem c7_witness :
    readLoop (fun _ => false) false none 3 1 [] [['x']] false =
      some ⟨1, [['x']], (ReadLineFromStdin none []).2, []⟩ :=
  c7_eof_still_commits_bindings.1 (fun _ => false) false none 3 0 [] [['x']] false (by decide)

/-! ### Overflow capping (C3): run/span algebra -/

theorem addToLast_nil_text : ∀ p : List (List Char), addToLast [] p = p
  | [] => rfl
  | [a] => by simp [addToLast]
  | a :: b :: l => by
    show a :: addToLast [] (b :: l) = a :: b :: l
    rw [addToLast_nil_text (b :: l)]

theorem addToLast_length (t : List Char) : ∀ p : List (List Char),
    (addToLast t p).length = p.length
  | [] => rfl
  | [a] => rfl
  | a :: b :: l => by
    show (a :: addToLast t (b :: l)).length = (a :: b :: l).length
    simp [addToLast_length t (b :: l)]

theorem addToLast_cons_of_ne_nil (u : List Char) (a : List Char) :
    ∀ {p : List (List Char)}, p ≠ [] → addToLast u (a :: p) = a :: addToLast u p
  | [], h => absurd rfl h
  | _ :: _, _ => rfl

theorem addToLast_addToLast (t u : List Char) : ∀ p : List (List Char), p ≠ [] →
    addToLast u (addToLast t p) = addToLast (t ++ u) p
  | [], h => absurd rfl h
  | [a], _ => by simp [addToLast]
  | a :: b :: l, _ => by
    rw [show addToLast t (a :: b :: l) = a :: addToLast t (b :: l) from rfl]
    rw [addToLast_cons_of_ne_nil u a (addToLast_ne_nil (by simp))]
    rw [addToLast_addToLast t u (b :: l) (by simp)]
    rfl

theorem capJoin_latch {k : Nat} (hk : k ≠ 0) {p : List (List Char)}
    (h : k ≤ p.length) (j : Bool) : capJoin k p j = true := by
  simp [capJoin, hk, h]

theorem capJoin_of_lt {k : Nat} {p : List (List Char)} (h : p.length < k) (j : Bool) :
    capJoin k p j = j := by
  unfold capJoin
  rw [if_neg]
  intro hc
  exact absurd hc.2 (Nat.not_le_of_lt h)

/-- The cursor-based span loop agrees with the text-based loop whenever the
run texts tile the part of the line from the cursor on. -/
theorem _AppendPartsLoop_eq_textLoop (s : List Char) (k : Nat) :
    ∀ (rs : List (SpanKind × List Char)) (start : Nat) (j lb : Bool) (p : List (List Char)),
      s.drop start = concatTexts rs →
      _AppendPartsLoop s k (spansOfRuns start rs) start j lb p =
        _AppendPartsTextLoop k rs j lb p
  | [], _, _, _, _, _ => rfl
  | (kk, t) :: rs, start, j, lb, p, h => by
    have hslice : pySlice s start (start + t.length) = t := by
      unfold pySlice
      rw [Nat.add_sub_cancel_left, h]
      show (t ++ concatTexts rs).take t.length = t
      exact List.take_left ..
    have hdrop : s.drop (start + t.length) = concatTexts rs := by
      rw [← List.drop_drop, h]
      show (t ++ concatTexts rs).drop t.length = concatTexts rs
      exact List.drop_left ..
    show _AppendPartsLoop s k ((kk, start + t.length) :: spansOfRuns (start + t.length) rs)
        start j lb p = _AppendPartsTextLoop k ((kk, t) :: rs) j lb p
    simp only [_AppendPartsLoop, _AppendPartsTextLoop, hslice]
    cases hstep : _AppendPartsStep t kk j lb p with
    | none => rfl
    | some x =>
      obtain ⟨j1, lb1, p1⟩ := x
      exact _AppendPartsLoop_eq_textLoop s k rs (start + t.length)
        (capJoin k p1 j1) lb1 p1 hdrop

theorem concatTexts_consRun (k : SpanKind) (c : Char) :
    ∀ rs : List (SpanKind × List Char), concatTexts (consRun k c rs) = c :: concatTexts rs
  | [] => rfl
  | (k', t) :: rs => by
    by_cases hk : k' = k
    · simp [consRun, hk, concatTexts]
    · simp [consRun, hk, concatTexts]

/-- The classifier's runs tile the line exactly. -/
theorem concatTexts_classifyRuns (ifs : Char → Bool) (esc : Bool) :
    ∀ line : List Char, concatTexts (classifyRuns ifs esc line) = line
  | [] => rfl
  | c :: rest => by
    rw [classifyRuns.eq_def]
    dsimp only
    by_cases hesc : esc = true ∧ c = '\\'
    · rw [if_pos hesc]
      obtain ⟨he, hc⟩ := hesc
      subst he
      subst hc
      cases rest with
      | nil => rfl
      | cons c2 rest2 =>
        have ih := concatTexts_classifyRuns ifs true rest2
        show '\\' :: concatTexts (consRun SpanKind.Black c2 (classifyRuns ifs true rest2)) =
          '\\' :: c2 :: rest2
        rw [concatTexts_consRun, ih]
    · rw [if_neg hesc]
      have ih := concatTexts_classifyRuns ifs esc rest
      by_cases hifs : ifs c = true
      · rw [if_pos hifs, concatTexts_consRun, ih]
      · rw [if_neg hifs, concatTexts_consRun, ih]

theorem consRun_kind (k : SpanKind) (c : Char) (rs : List (SpanKind × List Char)) :
    ∀ r ∈ consRun k c rs, r.1 = k ∨ ∃ r' ∈ rs, r.1 = r'.1 := by
  intro r hr
  match rs with
  | [] =>
    rcases List.mem_singleton.mp hr with rfl
    exact Or.inl rfl
  | (k', t) :: rs' =>
    by_cases hk : k' = k
    · simp only [consRun, if_pos hk] at hr
      rcases List.mem_cons.mp hr with rfl | hmem
      · exact Or.inl rfl
      · exact Or.inr ⟨r, List.mem_cons_of_mem _ hmem, rfl⟩
    · simp only [consRun, if_neg hk] at hr
      rcases List.mem_cons.mp hr with rfl | hmem
      · exact Or.inl rfl
      · exact Or.inr ⟨r, hmem, rfl⟩

/-- In raw mode (escapes disabled) the classifier never emits Escape runs. -/
theorem classifyRuns_no_backslash (ifs : Char → Bool) :
    ∀ line : List Char, ∀ r ∈ classifyRuns ifs false line, r.1 ≠ SpanKind.Backslash
  | [] => by intro r hr; exact absurd hr (List.not_mem_nil r)
  | c :: rest => by
    intro r hr
    have hesc : ¬((false : Bool) = true ∧ c = '\\') := by simp
    rw [classifyRuns.eq_def] at hr
    dsimp only at hr
    rw [if_neg hesc] at hr
    by_cases hifs : ifs c = true
    · rw [if_pos hifs] at hr
      rcases consRun_kind _ _ _ r hr with hk | ⟨r', hr', hk⟩
      · rw [hk]; simp
      · rw [hk]; exact classifyRuns_no_backslash ifs rest r' hr'
    · rw [if_neg hifs] at hr
      rcases consRun_kind _ _ _ r hr with hk | ⟨r', hr', hk⟩
      · rw [hk]; simp
      · rw [hk]; exact classifyRuns_no_backslash ifs rest r' hr'

/-- Span kinds of `spansOfRuns` come from the run kinds. -/
theorem spansOfRuns_kind :
    ∀ (rs : List (SpanKind × List Char)) (start : Nat),
      ∀ x ∈ spansOfRuns start rs, ∃ r ∈ rs, x.1 = r.1
  | [], _ => by intro x hx; exact absurd hx (List.not_mem_nil x)
  | (k, t) :: rs, start => by
    intro x hx
    rcases List.mem_cons.mp hx with rfl | hmem
    · exact ⟨(k, t), List.mem_cons_self .., rfl⟩
    · obtain ⟨r, hr, hk⟩ := spansOfRuns_kind rs (start + t.length) x hmem
      exact ⟨r, List.mem_cons_of_mem _ hr, hk⟩

theorem concatTexts_append : ∀ rs₁ rs₂ : List (SpanKind × List Char),
    concatTexts (rs₁ ++ rs₂) = concatTexts rs₁ ++ concatTexts rs₂
  | [], _ => rfl
  | (k, t) :: rs₁, rs₂ => by
    show t ++ concatTexts (rs₁ ++ rs₂) = (t ++ concatTexts rs₁) ++ concatTexts rs₂
    rw [concatTexts_append rs₁ rs₂, List.append_assoc]

theorem dropToBlack_suffix : ∀ (rs : List (SpanKind × List Char)) (j : Nat),
    ∃ rs₁, rs = rs₁ ++ dropToBlack j rs
  | [], j => ⟨[], by simp [dropToBlack]⟩
  | (k, t) :: rs, j => by
    by_cases hk : k = SpanKind.Black
    · by_cases hj : j = 0
      · exact ⟨[], by simp [dropToBlack, hk, hj]⟩
      · obtain ⟨rs₁, h⟩ := dropToBlack_suffix rs (j - 1)
        refine ⟨(k, t) :: rs₁, ?_⟩
        rw [dropToBlack, if_pos hk, if_neg hj, List.cons_append, ← h]
    · obtain ⟨rs₁, h⟩ := dropToBlack_suffix rs j
      refine ⟨(k, t) :: rs₁, ?_⟩
      rw [dropToBlack, if_neg hk, List.cons_append, ← h]

theorem addToLast_concat (u : List Char) : ∀ (p : List (List Char)) (a : List Char),
    addToLast u (p ++ [a]) = p ++ [a ++ u]
  | [], _ => rfl
  | [_], _ => rfl
  | b :: c :: l, a => by
    show b :: addToLast u ((c :: l) ++ [a]) = b :: ((c :: l) ++ [a ++ u])
    rw [addToLast_concat u (c :: l) a]

/-- A single step never pushes `parts` beyond `max_results` when the entry
state satisfies the capping invariant. -/
theorem _AppendPartsStep_length {t : List Char} {sk : SpanKind} {j lb j1 lb1 : Bool}
    {p p1 : List (List Char)} {k : Nat} (hk : k ≠ 0)
    (hlen : p.length ≤ k) (hinv : k ≤ p.length → j = true)
    (hstep : _AppendPartsStep t sk j lb p = some (j1, lb1, p1)) :
    p1.length ≤ k := by
  cases sk with
  | Black =>
    by_cases hc : j = true ∧ p ≠ []
    · rw [show _AppendPartsStep t SpanKind.Black j lb p = some (false, true, addToLast t p)
          from by simp [_AppendPartsStep, hc]] at hstep
      cases hstep
      rw [addToLast_length]
      exact hlen
    · rw [show _AppendPartsStep t SpanKind.Black j lb p = some (j, true, p ++ [t])
          from by simp [_AppendPartsStep, hc]] at hstep
      cases hstep
      have hplt : p.length < k := by
        rcases Nat.lt_or_ge p.length k with h | h
        · exact h
        · exfalso
          have hj := hinv h
          have hp : p ≠ [] := by
            intro hnil
            rw [hnil] at h
            simp at h
            exact hk h
          exact hc ⟨hj, hp⟩
      simp only [List.length_append, List.length_singleton]
      omega
  | Delim =>
    by_cases hjj : j = true
    · by_cases hp : p = []
      · rw [show _AppendPartsStep t SpanKind.Delim j lb p = none
            from by simp [_AppendPartsStep, hjj, hp]] at hstep
        exact absurd hstep (by simp)
      · rw [show _AppendPartsStep t SpanKind.Delim j lb p = some (false, false, addToLast t p)
            from by simp [_AppendPartsStep, hjj, hp]] at hstep
        cases hstep
        rw [addToLast_length]
        exact hlen
    · rw [show _AppendPartsStep t SpanKind.Delim j lb p = some (j, false, p)
          from by simp [_AppendPartsStep, hjj]] at hstep
      cases hstep
      exact hlen
  | Backslash =>
    rw [show _AppendPartsStep t SpanKind.Backslash j lb p =
        some (if lb = true then true else j, false, p) from by simp [_AppendPartsStep]] at hstep
    cases hstep
    exact hlen

/-- The capping invariant of the span loop: when `max_results = k ≠ 0`,
`parts` never grows beyond `k` elements, and whenever it has reached `k`
elements the outgoing `join_next` is true. -/
theorem _AppendPartsLoop_cap_invariant (s : List Char) (k : Nat) (hk : k ≠ 0) :
    ∀ (spans : List (SpanKind × Nat)) (start : Nat) (j lb : Bool) (p : List (List Char))
      (j' : Bool) (p' : List (List Char)),
      p.length ≤ k → (k ≤ p.length → j = true) →
      _AppendPartsLoop s k spans start j lb p = some (j', p') →
      p'.length ≤ k ∧ (k ≤ p'.length → j' = true)
  | [], _, j, lb, p, j', p', hlen, hinv, h => by
    cases h
    exact ⟨hlen, hinv⟩
  | (sk, e) :: rest, start, j, lb, p, j', p', hlen, hinv, h => by
    simp only [_AppendPartsLoop] at h
    cases hstep : _AppendPartsStep (pySlice s start e) sk j lb p with
    | none => rw [hstep] at h; exact absurd h (by simp)
    | some x =>
      obtain ⟨j1, lb1, p1⟩ := x
      rw [hstep] at h
      dsimp only at h
      exact _AppendPartsLoop_cap_invariant s k hk rest e _ lb1 p1 j' p'
        (_AppendPartsStep_length hk hlen hinv hstep)
        (fun hc => capJoin_latch hk hc j1) h

/-- Capped phase: once `join_next` is latched with `parts` at (or beyond) the
cap, every remaining Content or Delimiter run is glued onto the final
element, so the line's remaining text lands there verbatim. -/
theorem textLoop_capped (k : Nat) (hk : k ≠ 0) :
    ∀ (rs : List (SpanKind × List Char)), (∀ r ∈ rs, r.1 ≠ SpanKind.Backslash) →
    ∀ (lb : Bool) (p : List (List Char)), p ≠ [] → k ≤ p.length →
      _AppendPartsTextLoop k rs true lb p = some (true, addToLast (concatTexts rs) p)
  | [], _, lb, p, hp, _ => by
    show some (true, p) = some (true, addToLast (concatTexts []) p)
    rw [show concatTexts [] = [] from rfl, addToLast_nil_text]
  | (kk, t) :: rs, hnb, lb, p, hp, hle => by
    have hnb' : ∀ r ∈ rs, r.1 ≠ SpanKind.Backslash :=
      fun r hr => hnb r (List.mem_cons_of_mem _ hr)
    have hkind := hnb (kk, t) (List.mem_cons_self ..)
    have hlen' : k ≤ (addToLast t p).length := by rw [addToLast_length]; exact hle
    have hrec := textLoop_capped k hk rs hnb'
    cases kk with
    | Backslash => exact absurd rfl hkind
    | Black =>
      have hstep : _AppendPartsStep t SpanKind.Black true lb p =
          some (false, true, addToLast t p) := by simp [_AppendPartsStep, hp]
      simp only [_AppendPartsTextLoop, hstep]
      rw [capJoin_latch hk hlen' false]
      rw [hrec true (addToLast t p) (addToLast_ne_nil hp) hlen']
      rw [addToLast_addToLast t _ p hp]
      rfl
    | Delim =>
      have hstep : _AppendPartsStep t SpanKind.Delim true lb p =
          some (false, false, addToLast t p) := by simp [_AppendPartsStep, hp]
      simp only [_AppendPartsTextLoop, hstep]
      rw [capJoin_latch hk hlen' false]
      rw [hrec false (addToLast t p) (addToLast_ne_nil hp) hlen']
      rw [addToLast_addToLast t _ p hp]
      rfl

/-- Uncapped phase: starting below the cap with `join_next` false, the loop
appends one part per Content run until the cap (when ever reached) latches
`join_next`, after which the rest of the line is glued onto the final
element.  The first conjunct covers lines with fewer tokens than the cap
leaves room for; the second covers lines that reach the cap. -/
theorem textLoop_uncapped (k : Nat) (hk : k ≠ 0) :
    ∀ (rs : List (SpanKind × List Char)), (∀ r ∈ rs, r.1 ≠ SpanKind.Backslash) →
    ∀ (lb : Bool) (p : List (List Char)), p.length < k →
      ((blackTexts rs).length < k - p.length →
        ∃ j', _AppendPartsTextLoop k rs false lb p = some (j', p ++ blackTexts rs)) ∧
      (k - p.length ≤ (blackTexts rs).length →
        _AppendPartsTextLoop k rs false lb p =
          some (true, p ++ (blackTexts rs).take (k - p.length - 1) ++
            [concatTexts (dropToBlack (k - p.length - 1) rs)]))
  | [], _, lb, p, hlt => by
    constructor
    · intro _
      exact ⟨false, by simp [_AppendPartsTextLoop, blackTexts]⟩
    · intro hle
      rw [show blackTexts [] = [] from rfl] at hle
      simp at hle
      omega
  | (kk, t) :: rs, hnb, lb, p, hlt => by
    have hnb' : ∀ r ∈ rs, r.1 ≠ SpanKind.Backslash :=
      fun r hr => hnb r (List.mem_cons_of_mem _ hr)
    have hkind := hnb (kk, t) (List.mem_cons_self ..)
    cases kk with
    | Backslash => exact absurd rfl hkind
    | Delim =>
      have hstep : _AppendPartsStep t SpanKind.Delim false lb p = some (false, false, p) := by
        simp [_AppendPartsStep]
      have hbt : blackTexts ((SpanKind.Delim, t) :: rs) = blackTexts rs := by
        simp [blackTexts]
      have hdtb : ∀ jj, dropToBlack jj ((SpanKind.Delim, t) :: rs) = dropToBlack jj rs := by
        intro jj
        simp [dropToBlack]
      have ih := textLoop_uncapped k hk rs hnb' false p hlt
      constructor
      · intro hcnt
        rw [hbt] at hcnt
        obtain ⟨j', hj'⟩ := ih.1 hcnt
        refine ⟨j', ?_⟩
        simp only [_AppendPartsTextLoop, hstep]
        rw [capJoin_of_lt hlt, hj', hbt]
      · intro hcnt
        rw [hbt] at hcnt
        have h2 := ih.2 hcnt
        simp only [_AppendPartsTextLoop, hstep]
        rw [capJoin_of_lt hlt, h2, hbt, hdtb]
    | Black =>
      have hstep : _AppendPartsStep t SpanKind.Black false lb p =
          some (false, true, p ++ [t]) := by simp [_AppendPartsStep]
      have hbt : blackTexts ((SpanKind.Black, t) :: rs) = t :: blackTexts rs := by
        simp [blackTexts]
      by_cases hcap : k ≤ p.length + 1
      · have hkeq : k = p.length + 1 := Nat.le_antisymm hcap hlt
        have hc : capJoin k (p ++ [t]) false = true :=
          capJoin_latch hk (by simp [hkeq]) false
        have hp2 := textLoop_capped k hk rs hnb' true (p ++ [t]) (by simp) (by simp [hkeq])
        constructor
        · intro hcnt
          exfalso
          rw [hbt] at hcnt
          simp only [List.length_cons] at hcnt
          omega
        · intro _
          simp only [_AppendPartsTextLoop, hstep]
          rw [hc, hp2, hbt]
          have h1 : k - p.length - 1 = 0 := by omega
          rw [h1]
          rw [show dropToBlack 0 ((SpanKind.Black, t) :: rs) = (SpanKind.Black, t) :: rs
            from by simp [dropToBlack]]
          rw [addToLast_concat]
          show some (true, p ++ [t ++ concatTexts rs]) =
            some (true, p ++ List.take 0 (t :: blackTexts rs) ++ [t ++ concatTexts rs])
          simp
      · have hlt' : (p ++ [t]).length < k := by
          simp only [List.length_append, List.length_singleton]
          omega
        have ih := textLoop_uncapped k hk rs hnb' true (p ++ [t]) hlt'
        have hcj : capJoin k (p ++ [t]) false = false := capJoin_of_lt hlt' false
        constructor
        · intro hcnt
          rw [hbt] at hcnt
          have hcnt' : (blackTexts rs).length < k - (p ++ [t]).length := by
            simp only [List.length_cons] at hcnt
            simp only [List.length_append, List.length_singleton]
            omega
          obtain ⟨j', hj'⟩ := ih.1 hcnt'
          refine ⟨j', ?_⟩
          simp only [_AppendPartsTextLoop, hstep]
          rw [hcj, hj', hbt]
          simp
        · intro hcnt
          rw [hbt] at hcnt
          have hcnt' : k - (p ++ [t]).length ≤ (blackTexts rs).length := by
            simp only [List.length_cons] at hcnt
            simp only [List.length_append, List.length_singleton]
            omega
          have h2 := ih.2 hcnt'
          simp only [_AppendPartsTextLoop, hstep]
          rw [hcj, h2, hbt]
          have e1 : k - p.length - 1 = (k - (p ++ [t]).length - 1) + 1 := by
            simp only [List.length_append, List.length_singleton]
            omega
          rw [e1, List.take_succ_cons]
          rw [show dropToBlack ((k - (p ++ [t]).length - 1) + 1) ((SpanKind.Black, t) :: rs) =
              dropToBlack (k - (p ++ [t]).length - 1) rs from by
            rw [dropToBlack, if_pos rfl, if_neg (Nat.succ_ne_zero _)]
            simp]
          simp

/-- With no Escape runs, the `done` flag computed from the produced spans is
true. -/
theorem _AppendPartsDone_of_no_backslash {rs : List (SpanKind × List Char)}
    (hnb : ∀ r ∈ rs, r.1 ≠ SpanKind.Backslash) (start : Nat) :
    _AppendPartsDone (spansOfRuns start rs) = true := by
  cases hd : _AppendPartsDone (spansOfRuns start rs) with
  | true => rfl
  | false =>
    exfalso
    obtain ⟨e, he⟩ := (_AppendPartsDone_iff _).mp hd
    rcases List.mem_getLast?_eq_getLast (show (SpanKind.Backslash, e) ∈
        (spansOfRuns start rs).getLast? from he) with ⟨hne, heq⟩
    have hmem := List.getLast_mem hne
    rw [← heq] at hmem
    obtain ⟨r, hr, hkk⟩ := spansOfRuns_kind rs start _ hmem
    exact hnb r hr (by rw [← hkk])

/-- C3: with `max_results = k > 0` and an entry state satisfying the loop's
reachable-state invariant, after processing any span sequence `len(Parts)`
never exceeds `k` and once it has reached `k` the outgoing `join_next` is
true (first conjunct — since the loop processes spans left to right,
instantiating it at every prefix of a span sequence bounds every
intermediate state); consequently (second conjunct) a raw-mode line with
more than `k` tokens yields exactly `k` Parts: the first `k-1` tokens, and a
final element holding the whole rest of the line — the remaining tokens with
their original interior separators intact (a suffix `line.drop m`). -/
theorem c3_overflow_capping :
    (∀ (s : List Char) (spans : List (SpanKind × Nat)) (k start : Nat)
        (j lb : Bool) (p : List (List Char)) (j' : Bool) (p' : List (List Char)),
      0 < k → p.length ≤ k → (k ≤ p.length → j = true) →
      _AppendPartsLoop s k spans start j lb p = some (j', p') →
      p'.length ≤ k ∧ (k ≤ p'.length → j' = true)) ∧
    (∀ (ifs : Char → Bool) (line : List Char) (k : Nat), 0 < k →
      k < (blackTexts (classifyRuns ifs false line)).length →
      _AppendParts line (SplitForRead ifs false line) k false [] =
        some (true, true,
          (blackTexts (classifyRuns ifs false line)).take (k - 1) ++
            [concatTexts (dropToBlack (k - 1) (classifyRuns ifs false line))]) ∧
      ((blackTexts (classifyRuns ifs false line)).take (k - 1) ++
          [concatTexts (dropToBlack (k - 1) (classifyRuns ifs false line))]).length = k ∧
      ∃ m, concatTexts (dropToBlack (k - 1) (classifyRuns ifs false line)) = line.drop m) := by
  constructor
  · intro s spans k start j lb p j' p' hk hlen hinv h
    exact _AppendPartsLoop_cap_invariant s k (Nat.pos_iff_ne_zero.mp hk) spans start
      j lb p j' p' hlen hinv h
  · intro ifs line k hk htoks
    have hk0 : k ≠ 0 := Nat.pos_iff_ne_zero.mp hk
    have hnb := classifyRuns_no_backslash ifs line
    have htile : line.drop 0 = concatTexts (classifyRuns ifs false line) := by
      rw [List.drop_zero, concatTexts_classifyRuns]
    have hloop : _AppendPartsLoop line k
        (spansOfRuns 0 (classifyRuns ifs false line)) 0 false false [] =
        _AppendPartsTextLoop k (classifyRuns ifs false line) false false [] :=
      _AppendPartsLoop_eq_textLoop line k (classifyRuns ifs false line) 0 false false [] htile
    have htext := (textLoop_uncapped k hk0 (classifyRuns ifs false line) hnb false []
        (by simpa using hk)).2
      (by simpa using Nat.le_of_lt htoks)
    refine ⟨?_, ?_, ?_⟩
    · show (match _AppendPartsLoop line k (spansOfRuns 0 (classifyRuns ifs false line))
          0 false false [] with
        | none => none
        | some (j, p) =>
          some (_AppendPartsDone (spansOfRuns 0 (classifyRuns ifs false line)), j, p)) = _
      rw [hloop, htext]
      rw [_AppendPartsDone_of_no_backslash hnb 0]
      simp
    · rw [List.length_append, List.length_take, List.length_singleton]
      have : k - 1 ≤ (blackTexts (classifyRuns ifs false line)).length := by omega
      rw [min_eq_left this]
      omega
    · obtain ⟨rs₁, hsplit⟩ := dropToBlack_suffix (classifyRuns ifs false line) (k - 1)
      refine ⟨(concatTexts rs₁).length, ?_⟩
      conv_rhs => rw [← concatTexts_classifyRuns ifs false line, hsplit, concatTexts_append]
      rw [List.drop_left]

/-- C3 witness: IFS `':'`, line `"a:b:c"`, `k = 2`: three tokens collapse to
the two parts `["a", "b:c"]`. -/
theorem c3_witness :
    _AppendParts "a:b:c".toList
        (SplitForRead (fun c => c = ':') false "a:b:c".toList) 2 false [] =
      some (true, true,
        (blackTexts (classifyRuns (fun c => c = ':') false "a:b:c".toList)).take (2 - 1) ++
          [concatTexts (dropToBlack (2 - 1)
            (classifyRuns (fun c => c = ':') false "a:b:c".toList))]) :=
  (c3_overflow_capping.2 (fun c => c = ':') "a:b:c".toList 2 (by decide) (by decide)).1

end OshRead
